import Mathlib

/-!
Verification of the Regula Falsi core of src/app.py.

The core function `regula_falsi(f, a, b, tol, max_iter)` (src/app.py lines
38-67) is embedded over exact rationals.  Python semantics is modelled as
follows:

* the evaluator `f` may raise an exception; a fallible evaluator is a
  function `ℚ → Except ε ℚ`, and an exception raised inside `regula_falsi`
  that propagates to its caller is an `Except.error` result;
* `np.sign` on a real number is `npSign`, returning -1, 0 or 1;
* Python float division raises `ZeroDivisionError` when the denominator is
  zero; the division at line 51 is therefore guarded by the test
  `fb - fa = 0`, which produces the degenerate-bracket error;
* the `rows` list of dictionaries appended at line 53 becomes a
  `List IterationRecord`; the returned DataFrame is that list, available
  only when the function returns normally (`Except.ok`).
-/

/-- np.sign restricted to exact rationals: -1 for negatives, 0 for zero,
1 for positives (src/app.py uses `np.sign` at lines 44 and 59). -/
def npSign (x : ℚ) : ℤ :=
  if x < 0 then -1 else if x = 0 then 0 else 1

/-- One row of the iteration table appended at src/app.py line 53:
`{"iter": i, "a": a, "b": b, "c": c, "f(a)": fa, "f(b)": fb, "f(c)": fc}`. -/
structure IterationRecord where
  iter : ℕ
  a : ℚ
  b : ℚ
  c : ℚ
  fa : ℚ
  fb : ℚ
  fc : ℚ
deriving DecidableEq, Repr

/-- The distinct exception exits of `regula_falsi`:
`signError` is the `ValueError` raised at line 45; `degenerateBracket` is
the `ZeroDivisionError` Python raises at line 51 when `fb - fa == 0`;
`evalError e` is an exception `e` raised by the evaluator `f` itself
(lines 41, 42 and 52) propagating out of `regula_falsi` uncaught. -/
inductive RFError (ε : Type) where
  | signError
  | degenerateBracket
  | evalError (e : ε)
deriving DecidableEq

/-- The false-position formula of src/app.py line 51:
`c = (a * fb - b * fa) / (fb - fa)`. -/
def falsePos (a b fa fb : ℚ) : ℚ :=
  (a * fb - b * fa) / (fb - fa)

/-- The `for i in range(1, max_iter + 1)` loop of src/app.py lines 49-64,
as fuel recursion: `fuel` is the number of remaining iterations, `i` the
1-based index of the current iteration, `rows` the list accumulated so far. -/
def rfLoop {ε : Type} (f : ℚ → Except ε ℚ) (tol : ℚ) :
    ℕ → ℕ → ℚ → ℚ → ℚ → ℚ → List IterationRecord →
    Except (RFError ε) (List IterationRecord)
  | 0, _, _, _, _, _, rows => Except.ok rows
  | fuel + 1, i, a, b, fa, fb, rows =>
    if fb - fa = 0 then Except.error RFError.degenerateBracket
    else
      match f (falsePos a b fa fb) with
      | Except.error e => Except.error (RFError.evalError e)
      | Except.ok fc =>
        if |fc| ≤ tol then
          Except.ok (rows ++ [⟨i, a, b, falsePos a b fa fb, fa, fb, fc⟩])
        else if npSign fa * npSign fc < 0 then
          rfLoop f tol fuel (i + 1) a (falsePos a b fa fb) fa fc
            (rows ++ [⟨i, a, b, falsePos a b fa fb, fa, fb, fc⟩])
        else
          rfLoop f tol fuel (i + 1) (falsePos a b fa fb) b fc fb
            (rows ++ [⟨i, a, b, falsePos a b fa fb, fa, fb, fc⟩])

/-- `regula_falsi` of src/app.py lines 38-67: evaluate `fa`, `fb`, raise
`ValueError` when the signs agree, then run the iteration loop starting at
`i = 1` with an empty row list. -/
def regula_falsi {ε : Type} (f : ℚ → Except ε ℚ) (a b : ℚ) (tol : ℚ)
    (max_iter : ℕ) : Except (RFError ε) (List IterationRecord) :=
  match f a with
  | Except.error e => Except.error (RFError.evalError e)
  | Except.ok fa =>
    match f b with
    | Except.error e => Except.error (RFError.evalError e)
    | Except.ok fb =>
      if npSign fa = npSign fb then Except.error RFError.signError
      else rfLoop f tol max_iter 1 a b fa fb []

/-- An evaluator that never raises, from a total function. -/
def pureEval (f : ℚ → ℚ) : ℚ → Except Empty ℚ :=
  fun x => Except.ok (f x)

instance exceptDecEq {ε α : Type} [DecidableEq ε] [DecidableEq α] :
    DecidableEq (Except ε α) := fun x y =>
  match x, y with
  | Except.error u, Except.error v =>
    if h : u = v then isTrue (by rw [h])
    else isFalse (fun he => h (Except.error.inj he))
  | Except.error _, Except.ok _ => isFalse (fun he => Except.noConfusion he)
  | Except.ok _, Except.error _ => isFalse (fun he => Except.noConfusion he)
  | Except.ok u, Except.ok v =>
    if h : u = v then isTrue (by rw [h])
    else isFalse (fun he => h (Except.ok.inj he))

/-- One-step unfolding of the loop body, for the proofs below. -/
theorem rfLoop_succ {ε : Type} (f : ℚ → Except ε ℚ) (tol : ℚ)
    (fuel i : ℕ) (a b fa fb : ℚ) (rows : List IterationRecord) :
    rfLoop f tol (fuel + 1) i a b fa fb rows =
      if fb - fa = 0 then Except.error RFError.degenerateBracket
      else
        match f (falsePos a b fa fb) with
        | Except.error e => Except.error (RFError.evalError e)
        | Except.ok fc =>
          if |fc| ≤ tol then
            Except.ok (rows ++ [⟨i, a, b, falsePos a b fa fb, fa, fb, fc⟩])
          else if npSign fa * npSign fc < 0 then
            rfLoop f tol fuel (i + 1) a (falsePos a b fa fb) fa fc
              (rows ++ [⟨i, a, b, falsePos a b fa fb, fa, fb, fc⟩])
          else
            rfLoop f tol fuel (i + 1) (falsePos a b fa fb) b fc fb
              (rows ++ [⟨i, a, b, falsePos a b fa fb, fa, fb, fc⟩]) := rfl

theorem npSign_eq_zero_iff (x : ℚ) : npSign x = 0 ↔ x = 0 := by
  unfold npSign
  split_ifs with h1 h2
  · exact iff_of_false (by decide) (ne_of_lt h1)
  · exact iff_of_true rfl h2
  · exact iff_of_false (by decide) h2

theorem npSign_cases (x : ℚ) :
    npSign x = -1 ∨ npSign x = 0 ∨ npSign x = 1 := by
  unfold npSign
  split_ifs <;> simp

theorem npSign_ne_of_mul_neg {x y : ℚ} (h : npSign x * npSign y < 0) :
    npSign x ≠ npSign y := by
  intro he
  rw [he] at h
  exact absurd h (not_lt.mpr (mul_self_nonneg _))

theorem npSign_eq_of_mul_not_neg {x y : ℚ} (hx : npSign x ≠ 0)
    (hy : npSign y ≠ 0) (h : ¬ npSign x * npSign y < 0) :
    npSign x = npSign y := by
  rcases npSign_cases x with h1 | h1 | h1 <;>
    rcases npSign_cases y with h2 | h2 | h2 <;>
      rw [h1, h2] <;> rw [h1] at hx h <;> rw [h2] at hy h <;> omega

theorem falsePos_left_zero {a b fb : ℚ} (hfb : fb ≠ 0) :
    falsePos a b 0 fb = a := by
  unfold falsePos
  rw [mul_zero, sub_zero, sub_zero]
  exact mul_div_cancel_right₀ a hfb

theorem falsePos_right_zero {a b fa : ℚ} (hfa : fa ≠ 0) :
    falsePos a b fa 0 = b := by
  unfold falsePos
  rw [mul_zero, zero_sub, zero_sub, neg_div_neg_eq]
  exact mul_div_cancel_right₀ b hfa

/-- Loop body when the denominator is nonzero and the evaluation of `f`
at the new point fails: the evaluator's error propagates out. -/
theorem rfLoop_succ_err {ε : Type} (f : ℚ → Except ε ℚ) (tol : ℚ)
    (fuel i : ℕ) (a b fa fb : ℚ) (rows : List IterationRecord) (e : ε)
    (hden : ¬ fb - fa = 0) (hfc : f (falsePos a b fa fb) = Except.error e) :
    rfLoop f tol (fuel + 1) i a b fa fb rows =
      Except.error (RFError.evalError e) := by
  rw [rfLoop_succ, if_neg hden, hfc]

/-- Loop body when the denominator is nonzero and the evaluation of `f`
at the new point succeeds. -/
theorem rfLoop_succ_ok {ε : Type} (f : ℚ → Except ε ℚ) (tol : ℚ)
    (fuel i : ℕ) (a b fa fb fc : ℚ) (rows : List IterationRecord)
    (hden : ¬ fb - fa = 0) (hfc : f (falsePos a b fa fb) = Except.ok fc) :
    rfLoop f tol (fuel + 1) i a b fa fb rows =
      if |fc| ≤ tol then
        Except.ok (rows ++ [⟨i, a, b, falsePos a b fa fb, fa, fb, fc⟩])
      else if npSign fa * npSign fc < 0 then
        rfLoop f tol fuel (i + 1) a (falsePos a b fa fb) fa fc
          (rows ++ [⟨i, a, b, falsePos a b fa fb, fa, fb, fc⟩])
      else
        rfLoop f tol fuel (i + 1) (falsePos a b fa fb) b fc fb
          (rows ++ [⟨i, a, b, falsePos a b fa fb, fa, fb, fc⟩]) := by
  rw [rfLoop_succ, if_neg hden, hfc]

/-- Shape of the rows accumulated by the loop: on a normal return the
output extends the input rows by at most `fuel` new records, with
consecutive iteration indices starting at `i`, and at least one new
record when any fuel is left. -/
theorem rfLoop_shape {ε : Type} (f : ℚ → Except ε ℚ) (tol : ℚ) :
    ∀ (fuel i : ℕ) (a b fa fb : ℚ) (rows out : List IterationRecord),
      rfLoop f tol fuel i a b fa fb rows = Except.ok out →
      ∃ s, out = rows ++ s ∧ s.length ≤ fuel ∧
        (∀ k (hk : k < s.length), (s.get ⟨k, hk⟩).iter = i + k) ∧
        (0 < fuel → 0 < s.length) := by
  intro fuel
  induction fuel with
  | zero =>
    intro i a b fa fb rows out h
    simp only [rfLoop, Except.ok.injEq] at h
    exact ⟨[], by simp [h], by simp, fun k hk => absurd hk (by simp), by simp⟩
  | succ fuel ih =>
    intro i a b fa fb rows out h
    by_cases hden : fb - fa = 0
    · rw [rfLoop_succ, if_pos hden] at h
      exact Except.noConfusion h
    · cases hfc : f (falsePos a b fa fb) with
      | error e =>
        rw [rfLoop_succ_err f tol fuel i a b fa fb rows e hden hfc] at h
        exact Except.noConfusion h
      | ok fc =>
        rw [rfLoop_succ_ok f tol fuel i a b fa fb fc rows hden hfc] at h
        by_cases hstop : |fc| ≤ tol
        · rw [if_pos hstop] at h
          replace h := Except.ok.inj h
          refine ⟨[⟨i, a, b, falsePos a b fa fb, fa, fb, fc⟩], h.symm, by simp, ?_, by simp⟩
          intro k hk
          have hk0 : k = 0 := Nat.lt_one_iff.mp (by simpa using hk)
          subst hk0
          simp
        · rw [if_neg hstop] at h
          by_cases hbr : npSign fa * npSign fc < 0
          · rw [if_pos hbr] at h
            obtain ⟨s, hout, hlen, hidx, -⟩ := ih (i + 1) a (falsePos a b fa fb) fa fc
              (rows ++ [⟨i, a, b, falsePos a b fa fb, fa, fb, fc⟩]) out h
            refine ⟨⟨i, a, b, falsePos a b fa fb, fa, fb, fc⟩ :: s, by simp [hout], by simpa using hlen, ?_, by simp⟩
            intro k hk
            cases k with
            | zero => simp
            | succ k =>
              have hk2 : k < s.length := by simpa using hk
              have h1 := hidx k hk2
              show (s.get ⟨k, hk2⟩).iter = i + (k + 1)
              omega
          · rw [if_neg hbr] at h
            obtain ⟨s, hout, hlen, hidx, -⟩ := ih (i + 1) (falsePos a b fa fb) b fc fb
              (rows ++ [⟨i, a, b, falsePos a b fa fb, fa, fb, fc⟩]) out h
            refine ⟨⟨i, a, b, falsePos a b fa fb, fa, fb, fc⟩ :: s, by simp [hout], by simpa using hlen, ?_, by simp⟩
            intro k hk
            cases k with
            | zero => simp
            | succ k =>
              have hk2 : k < s.length := by simpa using hk
              have h1 := hidx k hk2
              show (s.get ⟨k, hk2⟩).iter = i + (k + 1)
              omega

/-- Entry behaviour when evaluating `f(a)` (line 41) raises: the
exception propagates out of `regula_falsi`. -/
theorem regula_falsi_errA {ε : Type} (f : ℚ → Except ε ℚ) (a b tol : ℚ)
    (n : ℕ) (e : ε) (hfa : f a = Except.error e) :
    regula_falsi f a b tol n = Except.error (RFError.evalError e) := by
  unfold regula_falsi
  rw [hfa]

/-- Entry behaviour when evaluating `f(b)` (line 42) raises. -/
theorem regula_falsi_errB {ε : Type} (f : ℚ → Except ε ℚ) (a b tol : ℚ)
    (n : ℕ) (fa : ℚ) (e : ε) (hfa : f a = Except.ok fa)
    (hfb : f b = Except.error e) :
    regula_falsi f a b tol n = Except.error (RFError.evalError e) := by
  unfold regula_falsi
  rw [hfa, hfb]

/-- Entry behaviour when both end evaluations succeed. -/
theorem regula_falsi_eq {ε : Type} (f : ℚ → Except ε ℚ) (a b tol : ℚ)
    (n : ℕ) (fa fb : ℚ) (hfa : f a = Except.ok fa)
    (hfb : f b = Except.ok fb) :
    regula_falsi f a b tol n =
      if npSign fa = npSign fb then Except.error RFError.signError
      else rfLoop f tol n 1 a b fa fb [] := by
  unfold regula_falsi
  rw [hfa, hfb]

/-- A normal return of `regula_falsi` means: both end evaluations
succeeded, the entry sign check passed, and the loop returned the rows. -/
theorem regula_falsi_ok_inv {ε : Type} (f : ℚ → Except ε ℚ) (a b tol : ℚ)
    (n : ℕ) (rows : List IterationRecord)
    (h : regula_falsi f a b tol n = Except.ok rows) :
    ∃ fa fb, f a = Except.ok fa ∧ f b = Except.ok fb ∧
      npSign fa ≠ npSign fb ∧
      rfLoop f tol n 1 a b fa fb [] = Except.ok rows := by
  cases hfa : f a with
  | error e =>
    rw [regula_falsi_errA f a b tol n e hfa] at h
    exact Except.noConfusion h
  | ok fa =>
    cases hfb : f b with
    | error e =>
      rw [regula_falsi_errB f a b tol n fa e hfa hfb] at h
      exact Except.noConfusion h
    | ok fb =>
      rw [regula_falsi_eq f a b tol n fa fb hfa hfb] at h
      by_cases hs : npSign fa = npSign fb
      · rw [if_pos hs] at h
        exact Except.noConfusion h
      · rw [if_neg hs] at h
        exact ⟨fa, fb, rfl, rfl, hs, h⟩

/-- C9: Trace shape on normal return.  Whenever `regula_falsi` returns
without raising, with `max_iter ≥ 1`, the trace has between 1 and
`max_iter` records, the k-th record (0-indexed here) has iteration index
`k + 1`, and the last record's index equals the trace length. -/
theorem C9_trace_shape {ε : Type} (f : ℚ → Except ε ℚ) (a b tol : ℚ)
    (n : ℕ) (rows : List IterationRecord) (hn : 1 ≤ n)
    (h : regula_falsi f a b tol n = Except.ok rows) :
    1 ≤ rows.length ∧ rows.length ≤ n ∧
      (∀ k (hk : k < rows.length), (rows.get ⟨k, hk⟩).iter = k + 1) ∧
      ∃ hne : rows ≠ [], (rows.getLast hne).iter = rows.length := by
  obtain ⟨fa, fb, hfa, hfb, hs, hloop⟩ :=
    regula_falsi_ok_inv f a b tol n rows h
  obtain ⟨s, hout, hlen, hidx, hpos⟩ :=
    rfLoop_shape f tol n 1 a b fa fb [] rows hloop
  rw [List.nil_append] at hout
  subst hout
  have hne : rows ≠ [] :=
    List.length_pos.mp (hpos (Nat.lt_of_lt_of_le Nat.zero_lt_one hn))
  have hidx2 : ∀ k (hk : k < rows.length), (rows.get ⟨k, hk⟩).iter = k + 1 := by
    intro k hk
    rw [hidx k hk]
    omega
  refine ⟨hpos (Nat.lt_of_lt_of_le Nat.zero_lt_one hn), hlen, hidx2, hne, ?_⟩
  have hlt : rows.length - 1 < rows.length :=
    Nat.sub_lt (List.length_pos.mpr hne) Nat.zero_lt_one
  rw [List.getLast_eq_getElem]
  have h2 := hidx2 (rows.length - 1) hlt
  rw [List.get_eq_getElem] at h2
  rw [h2]
  omega

/-- Witness for C9 on a concrete one-iteration convergent run. -/
theorem C9_trace_shape_witness :
    1 ≤ ([⟨1, -1, 1, 0, -1, 1, 0⟩] : List IterationRecord).length ∧
      ([⟨1, -1, 1, 0, -1, 1, 0⟩] : List IterationRecord).length ≤ 1 ∧
      (∀ k (hk : k < ([⟨1, -1, 1, 0, -1, 1, 0⟩] : List IterationRecord).length),
        (([⟨1, -1, 1, 0, -1, 1, 0⟩] : List IterationRecord).get ⟨k, hk⟩).iter = k + 1) ∧
      ∃ hne : ([⟨1, -1, 1, 0, -1, 1, 0⟩] : List IterationRecord) ≠ [],
        (([⟨1, -1, 1, 0, -1, 1, 0⟩] : List IterationRecord).getLast hne).iter =
          ([⟨1, -1, 1, 0, -1, 1, 0⟩] : List IterationRecord).length := by
  exact C9_trace_shape (pureEval fun x => x) (-1) 1 1 1
    [⟨1, -1, 1, 0, -1, 1, 0⟩] (le_refl 1)
    (by norm_num [regula_falsi, rfLoop, pureEval, falsePos, npSign])

/-- Sign invariant of the loop: when the two current endpoint values are
consistent with `f` and disagree in sign, every record of a normal return
was produced from a bracket whose endpoint values disagree in sign. -/
theorem rfLoop_sign_invariant {ε : Type} (f : ℚ → Except ε ℚ) (tol : ℚ)
    (htol : 0 ≤ tol) :
    ∀ (fuel i : ℕ) (a b fa fb : ℚ) (rows out : List IterationRecord),
      f a = Except.ok fa → f b = Except.ok fb → npSign fa ≠ npSign fb →
      (∀ r ∈ rows, npSign r.fa ≠ npSign r.fb) →
      rfLoop f tol fuel i a b fa fb rows = Except.ok out →
      ∀ r ∈ out, npSign r.fa ≠ npSign r.fb := by
  intro fuel
  induction fuel with
  | zero =>
    intro i a b fa fb rows out _ _ _ hrows h
    simp only [rfLoop, Except.ok.injEq] at h
    subst h
    exact hrows
  | succ fuel ih =>
    intro i a b fa fb rows out hfa hfb hneq hrows h
    by_cases hden : fb - fa = 0
    · rw [rfLoop_succ, if_pos hden] at h
      exact Except.noConfusion h
    · cases hfc : f (falsePos a b fa fb) with
      | error e =>
        rw [rfLoop_succ_err f tol fuel i a b fa fb rows e hden hfc] at h
        exact Except.noConfusion h
      | ok fc =>
        rw [rfLoop_succ_ok f tol fuel i a b fa fb fc rows hden hfc] at h
        have hrows2 : ∀ r ∈ rows ++ [⟨i, a, b, falsePos a b fa fb, fa, fb, fc⟩],
            npSign r.fa ≠ npSign r.fb := by
          intro r hr
          rcases List.mem_append.mp hr with hr | hr
          · exact hrows r hr
          · have := List.mem_singleton.mp hr
            subst this
            exact hneq
        by_cases hstop : |fc| ≤ tol
        · rw [if_pos hstop] at h
          replace h := Except.ok.inj h
          subst h
          exact hrows2
        · rw [if_neg hstop] at h
          have hfc0 : npSign fc ≠ 0 := by
            intro hz
            have h0 : fc = 0 := (npSign_eq_zero_iff fc).mp hz
            exact hstop (by rw [h0]; simpa using htol)
          by_cases hbr : npSign fa * npSign fc < 0
          · rw [if_pos hbr] at h
            exact ih (i + 1) a (falsePos a b fa fb) fa fc _ out hfa hfc
              (npSign_ne_of_mul_neg hbr) hrows2 h
          · rw [if_neg hbr] at h
            have hfa0 : fa ≠ 0 := by
              intro h0
              have hfb0 : fb ≠ 0 := by
                intro hb0
                exact hneq (by rw [h0, hb0])
              rw [h0, falsePos_left_zero hfb0, hfa] at hfc
              replace hfc := Except.ok.inj hfc
              exact hfc0 (by rw [← hfc, h0, npSign_eq_zero_iff])
            have hsfa : npSign fa ≠ 0 :=
              fun hz => hfa0 ((npSign_eq_zero_iff fa).mp hz)
            have heq := npSign_eq_of_mul_not_neg hsfa hfc0 hbr
            exact ih (i + 1) (falsePos a b fa fb) b fc fb _ out hfc hfb
              (fun hcb => hneq (heq.trans hcb)) hrows2 h

/-- The loop recurses only when the stop test `|fc| <= tol` fails, so
in a normal return every record except possibly the last has a residual
above `tol`. -/
theorem rfLoop_tol {ε : Type} (f : ℚ → Except ε ℚ) (tol : ℚ) :
    ∀ (fuel i : ℕ) (a b fa fb : ℚ) (rows out : List IterationRecord),
      rfLoop f tol fuel i a b fa fb rows = Except.ok out →
      (∀ r ∈ rows, tol < |r.fc|) →
      ∀ k (hk : k + 1 < out.length),
        tol < |(out.get ⟨k, Nat.lt_of_succ_lt hk⟩).fc| := by
  intro fuel
  induction fuel with
  | zero =>
    intro i a b fa fb rows out h hrows k hk
    simp only [rfLoop, Except.ok.injEq] at h
    subst h
    exact hrows _ (List.get_mem _ _ _)
  | succ fuel ih =>
    intro i a b fa fb rows out h hrows
    by_cases hden : fb - fa = 0
    · rw [rfLoop_succ, if_pos hden] at h
      exact Except.noConfusion h
    · cases hfc : f (falsePos a b fa fb) with
      | error e =>
        rw [rfLoop_succ_err f tol fuel i a b fa fb rows e hden hfc] at h
        exact Except.noConfusion h
      | ok fc =>
        rw [rfLoop_succ_ok f tol fuel i a b fa fb fc rows hden hfc] at h
        by_cases hstop : |fc| ≤ tol
        · rw [if_pos hstop] at h
          replace h := Except.ok.inj h
          subst h
          intro k hk
          have hklt : k < rows.length := by
            have := hk
            simp only [List.length_append, List.length_singleton] at this
            omega
          rw [List.get_eq_getElem, List.getElem_append_left hklt]
          exact hrows _ (List.getElem_mem hklt)
        · rw [if_neg hstop] at h
          have hrows2 : ∀ r ∈ rows ++ [⟨i, a, b, falsePos a b fa fb, fa, fb, fc⟩],
              tol < |r.fc| := by
            intro r hr
            rcases List.mem_append.mp hr with hr | hr
            · exact hrows r hr
            · have := List.mem_singleton.mp hr
              subst this
              exact lt_of_not_le hstop
          by_cases hbr : npSign fa * npSign fc < 0
          · rw [if_pos hbr] at h
            exact ih (i + 1) a (falsePos a b fa fb) fa fc _ out h hrows2
          · rw [if_neg hbr] at h
            exact ih (i + 1) (falsePos a b fa fb) b fc fb _ out h hrows2

/-- A normal return that used strictly fewer iterations than the fuel
allowed must have ended at the stop test: the last record converged. -/
theorem rfLoop_early_stop {ε : Type} (f : ℚ → Except ε ℚ) (tol : ℚ) :
    ∀ (fuel i : ℕ) (a b fa fb : ℚ) (rows out : List IterationRecord),
      rfLoop f tol fuel i a b fa fb rows = Except.ok out →
      out.length < rows.length + fuel →
      ∃ hne : out ≠ [], |(out.getLast hne).fc| ≤ tol := by
  intro fuel
  induction fuel with
  | zero =>
    intro i a b fa fb rows out h hlen
    simp only [rfLoop, Except.ok.injEq] at h
    subst h
    exact absurd hlen (by omega)
  | succ fuel ih =>
    intro i a b fa fb rows out h hlen
    by_cases hden : fb - fa = 0
    · rw [rfLoop_succ, if_pos hden] at h
      exact Except.noConfusion h
    · cases hfc : f (falsePos a b fa fb) with
      | error e =>
        rw [rfLoop_succ_err f tol fuel i a b fa fb rows e hden hfc] at h
        exact Except.noConfusion h
      | ok fc =>
        rw [rfLoop_succ_ok f tol fuel i a b fa fb fc rows hden hfc] at h
        by_cases hstop : |fc| ≤ tol
        · rw [if_pos hstop] at h
          replace h := Except.ok.inj h
          subst h
          refine ⟨by simp, ?_⟩
          rw [List.getLast_append_singleton]
          exact hstop
        · rw [if_neg hstop] at h
          by_cases hbr : npSign fa * npSign fc < 0
          · rw [if_pos hbr] at h
            refine ih (i + 1) a (falsePos a b fa fb) fa fc _ out h ?_
            simp only [List.length_append, List.length_singleton]
            omega
          · rw [if_neg hbr] at h
            refine ih (i + 1) (falsePos a b fa fb) b fc fb _ out h ?_
            simp only [List.length_append, List.length_singleton]
            omega

/-- C4: Stopping criterion.  On a normal return every record before the
last has residual strictly above `tol` (the loop stops right after the
first record with `|fc| ≤ tol`), and a run that used fewer than
`max_iter` iterations can only have stopped because its last record met
the tolerance — there is no other numeric stopping criterion. -/
theorem C4_stop_criterion {ε : Type} (f : ℚ → Except ε ℚ) (a b tol : ℚ)
    (n : ℕ) (rows : List IterationRecord)
    (h : regula_falsi f a b tol n = Except.ok rows) :
    (∀ k (hk : k + 1 < rows.length),
      tol < |(rows.get ⟨k, Nat.lt_of_succ_lt hk⟩).fc|) ∧
    (rows.length < n → ∃ hne : rows ≠ [], |(rows.getLast hne).fc| ≤ tol) := by
  obtain ⟨fa, fb, hfa, hfb, hs, hloop⟩ :=
    regula_falsi_ok_inv f a b tol n rows h
  constructor
  · exact rfLoop_tol f tol n 1 a b fa fb [] rows hloop
      (fun r hr => absurd hr (List.not_mem_nil r))
  · intro hlen
    exact rfLoop_early_stop f tol n 1 a b fa fb [] rows hloop (by simpa using hlen)

/-- Witness for C4 on a concrete convergent run. -/
theorem C4_stop_criterion_witness :
    (∀ k (hk : k + 1 < ([⟨1, -1, 1, 0, -1, 1, 0⟩] : List IterationRecord).length),
      (1 : ℚ) < |(([⟨1, -1, 1, 0, -1, 1, 0⟩] : List IterationRecord).get
        ⟨k, Nat.lt_of_succ_lt hk⟩).fc|) ∧
    (([⟨1, -1, 1, 0, -1, 1, 0⟩] : List IterationRecord).length < 3 →
      ∃ hne : ([⟨1, -1, 1, 0, -1, 1, 0⟩] : List IterationRecord) ≠ [],
        |(([⟨1, -1, 1, 0, -1, 1, 0⟩] : List IterationRecord).getLast hne).fc| ≤ 1) := by
  exact C4_stop_criterion (pureEval fun x => x) (-1) 1 1 3
    [⟨1, -1, 1, 0, -1, 1, 0⟩]
    (by norm_num [regula_falsi, rfLoop, pureEval, falsePos, npSign])

/-- The bracket update rule of src/app.py lines 58-64 as a relation
between consecutive records: after a record `r` that kept iterating, the
next record `s` was produced either from the bracket `(a, c)` — when
`sign(fa) * sign(fc) < 0`, so `(b, fb)` was replaced by `(c, fc)` and
`(a, fa)` kept — or, otherwise (including `sign(fc) = 0`), from `(c, b)`
— so `(a, fa)` was replaced by `(c, fc)` and `(b, fb)` kept. -/
def stepRel (r s : IterationRecord) : Prop :=
  if npSign r.fa * npSign r.fc < 0 then
    s.a = r.a ∧ s.fa = r.fa ∧ s.b = r.c ∧ s.fb = r.fc
  else
    s.a = r.c ∧ s.fa = r.fc ∧ s.b = r.b ∧ s.fb = r.fb

/-- The current bracket is the one the update rule produces after the
record `r`. -/
def linksTo (r : IterationRecord) (a b fa fb : ℚ) : Prop :=
  if npSign r.fa * npSign r.fc < 0 then
    a = r.a ∧ fa = r.fa ∧ b = r.c ∧ fb = r.fc
  else
    a = r.c ∧ fa = r.fc ∧ b = r.b ∧ fb = r.fb

theorem getLast?_append_singleton {α : Type} (l : List α) (x : α) :
    (l ++ [x]).getLast? = some x := by
  exact List.getLast?_concat l

/-- Consecutive records of a normal return are linked by the bracket
update rule, given that the accumulated rows already are and the current
bracket extends their last record. -/
theorem rfLoop_chain {ε : Type} (f : ℚ → Except ε ℚ) (tol : ℚ) :
    ∀ (fuel i : ℕ) (a b fa fb : ℚ) (rows out : List IterationRecord),
      List.Chain' stepRel rows →
      (∀ r, rows.getLast? = some r → linksTo r a b fa fb) →
      rfLoop f tol fuel i a b fa fb rows = Except.ok out →
      List.Chain' stepRel out := by
  intro fuel
  induction fuel with
  | zero =>
    intro i a b fa fb rows out hch _ h
    simp only [rfLoop, Except.ok.injEq] at h
    subst h
    exact hch
  | succ fuel ih =>
    intro i a b fa fb rows out hch hlink h
    by_cases hden : fb - fa = 0
    · rw [rfLoop_succ, if_pos hden] at h
      exact Except.noConfusion h
    · cases hfc : f (falsePos a b fa fb) with
      | error e =>
        rw [rfLoop_succ_err f tol fuel i a b fa fb rows e hden hfc] at h
        exact Except.noConfusion h
      | ok fc =>
        rw [rfLoop_succ_ok f tol fuel i a b fa fb fc rows hden hfc] at h
        have hch2 : List.Chain' stepRel
            (rows ++ [⟨i, a, b, falsePos a b fa fb, fa, fb, fc⟩]) := by
          rw [List.chain'_append]
          refine ⟨hch, List.chain'_singleton _, ?_⟩
          intro x hx y hy
          have hy2 : y = ⟨i, a, b, falsePos a b fa fb, fa, fb, fc⟩ := by
            have := hy
            simp only [List.head?_cons, Option.mem_def, Option.some.injEq] at this
            exact this.symm
          subst hy2
          exact hlink x (Option.mem_def.mp hx)
        by_cases hstop : |fc| ≤ tol
        · rw [if_pos hstop] at h
          replace h := Except.ok.inj h
          subst h
          exact hch2
        · rw [if_neg hstop] at h
          by_cases hbr : npSign fa * npSign fc < 0
          · rw [if_pos hbr] at h
            refine ih (i + 1) a (falsePos a b fa fb) fa fc _ out hch2 ?_ h
            intro r hr
            rw [getLast?_append_singleton] at hr
            replace hr := Option.some.inj hr
            subst hr
            unfold linksTo
            split_ifs with hcond
            · exact ⟨rfl, rfl, rfl, rfl⟩
            · exact absurd hbr hcond
          · rw [if_neg hbr] at h
            refine ih (i + 1) (falsePos a b fa fb) b fc fb _ out hch2 ?_ h
            intro r hr
            rw [getLast?_append_singleton] at hr
            replace hr := Option.some.inj hr
            subst hr
            unfold linksTo
            split_ifs with hcond
            · exact absurd hcond hbr
            · exact ⟨rfl, rfl, rfl, rfl⟩

/-- C3: Bracket update rule with tie-break.  In every returned trace,
consecutive records are related by `stepRel`: when
`sign(fa) * sign(fc) < 0` the pair `(b, fb)` was replaced by `(c, fc)`
and `(a, fa)` kept; otherwise — including `sign(fc) = 0` — the pair
`(a, fa)` was replaced by `(c, fc)` and `(b, fb)` kept. -/
theorem C3_bracket_update {ε : Type} (f : ℚ → Except ε ℚ) (a b tol : ℚ)
    (n : ℕ) (rows : List IterationRecord)
    (h : regula_falsi f a b tol n = Except.ok rows) :
    List.Chain' stepRel rows := by
  obtain ⟨fa, fb, hfa, hfb, hs, hloop⟩ :=
    regula_falsi_ok_inv f a b tol n rows h
  exact rfLoop_chain f tol n 1 a b fa fb [] rows List.chain'_nil
    (fun r hr => Option.noConfusion hr) hloop

/-- Witness for C3 on a concrete two-iteration run of `x² - 2` on
`[0, 2]`, whose first step takes the else branch (`a` replaced). -/
theorem C3_bracket_update_witness :
    List.Chain' stepRel
      [⟨1, 0, 2, 1, -2, 2, -1⟩, ⟨2, 1, 2, 4/3, -1, 2, -2/9⟩] := by
  exact C3_bracket_update (pureEval fun x => x * x - 2) 0 2 (1/10) 2
    [⟨1, 0, 2, 1, -2, 2, -1⟩, ⟨2, 1, 2, 4/3, -1, 2, -2/9⟩]
    (by norm_num [regula_falsi, rfLoop, pureEval, falsePos, npSign])

/-- C1: Bracket sign invariant.  For every run of `regula_falsi` that
returns a trace (so the entry check `sign(fa) ≠ sign(fb)` passed), every
record in the trace was produced from a bracket whose endpoint function
values disagree in sign. -/
theorem C1_bracket_invariant {ε : Type} (f : ℚ → Except ε ℚ) (a b tol : ℚ)
    (n : ℕ) (rows : List IterationRecord) (htol : 0 ≤ tol)
    (h : regula_falsi f a b tol n = Except.ok rows) :
    ∀ r ∈ rows, npSign r.fa ≠ npSign r.fb := by
  obtain ⟨fa, fb, hfa, hfb, hs, hloop⟩ :=
    regula_falsi_ok_inv f a b tol n rows h
  exact rfLoop_sign_invariant f tol htol n 1 a b fa fb [] rows hfa hfb hs
    (fun r hr => absurd hr (List.not_mem_nil r)) hloop

/-- Witness for C1 on a concrete convergent run. -/
theorem C1_bracket_invariant_witness :
    npSign (IterationRecord.fa ⟨1, -1, 1, 0, -1, 1, 0⟩) ≠
      npSign (IterationRecord.fb ⟨1, -1, 1, 0, -1, 1, 0⟩) := by
  exact C1_bracket_invariant (pureEval fun x => x) (-1) 1 1 1
    [⟨1, -1, 1, 0, -1, 1, 0⟩] (by norm_num)
    (by norm_num [regula_falsi, rfLoop, pureEval, falsePos, npSign])
    ⟨1, -1, 1, 0, -1, 1, 0⟩ (List.mem_singleton_self _)

/-- C2: Degenerate-bracket failure.  In every iteration of the loop, if
`fb = fa` the run ends with the degenerate-bracket error (Python's
`ZeroDivisionError` at line 51) instead of computing `c`. -/
theorem C2_degenerate_bracket {ε : Type} (f : ℚ → Except ε ℚ) (tol : ℚ)
    (fuel i : ℕ) (a b fa fb : ℚ) (rows : List IterationRecord)
    (h : fb = fa) :
    rfLoop f tol (fuel + 1) i a b fa fb rows =
      Except.error RFError.degenerateBracket := by
  rw [rfLoop_succ, if_pos (by rw [h, sub_self])]

/-- Witness for C2 at a concrete iteration state. -/
theorem C2_degenerate_bracket_witness :
    rfLoop (pureEval fun x => x) 1 3 1 0 2 5 5 [] =
      Except.error RFError.degenerateBracket := by
  have h := C2_degenerate_bracket (pureEval fun x => x) 1 2 1 0 2 5 5 [] rfl
  exact h

/-- C5: Sign failure at entry.  When `f(a)` and `f(b)` evaluate
successfully and `sign(f(a)) = sign(f(b))`, `regula_falsi` raises the
`ValueError` of line 45 before any iteration, so no record is produced. -/
theorem C5_sign_error {ε : Type} (f : ℚ → Except ε ℚ) (a b tol : ℚ)
    (n : ℕ) (fa fb : ℚ) (hfa : f a = Except.ok fa)
    (hfb : f b = Except.ok fb) (h : npSign fa = npSign fb) :
    regula_falsi f a b tol n = Except.error RFError.signError := by
  unfold regula_falsi
  rw [hfa, hfb]
  exact if_pos h

/-- Witness for C5: the spec's example `f(x) = x + 5`, `a = 0`, `b = 1`. -/
theorem C5_sign_error_witness :
    regula_falsi (pureEval fun x => x + 5) 0 1 (1/1000000) 50 =
      Except.error RFError.signError := by
  exact C5_sign_error (pureEval fun x => x + 5) 0 1 (1/1000000) 50 5 6
    (by norm_num [pureEval]) (by norm_num [pureEval]) (by decide)

/-- With a never-raising evaluator, a sign-disagreeing bracket and a
nonnegative tolerance, the loop always returns normally, and when no
produced record meets the tolerance it runs for exactly `fuel`
iterations. -/
theorem rfLoop_pure_total (f : ℚ → ℚ) (tol : ℚ) (htol : 0 ≤ tol) :
    ∀ (fuel i : ℕ) (a b fa fb : ℚ) (rows : List IterationRecord),
      f a = fa → f b = fb → npSign fa ≠ npSign fb →
      ∃ s, rfLoop (pureEval f) tol fuel i a b fa fb rows =
          Except.ok (rows ++ s) ∧
        ((∀ r ∈ s, tol < |r.fc|) → s.length = fuel) := by
  intro fuel
  induction fuel with
  | zero =>
    intro i a b fa fb rows hfa hfb hneq
    exact ⟨[], by simp [rfLoop], fun _ => rfl⟩
  | succ fuel ih =>
    intro i a b fa fb rows hfa hfb hneq
    have hden : ¬ fb - fa = 0 := by
      intro h0
      exact hneq (by rw [sub_eq_zero.mp h0])
    have hfc : pureEval f (falsePos a b fa fb) =
        Except.ok (f (falsePos a b fa fb)) := rfl
    by_cases hstop : |f (falsePos a b fa fb)| ≤ tol
    · refine ⟨[⟨i, a, b, falsePos a b fa fb, fa, fb, f (falsePos a b fa fb)⟩],
        ?_, ?_⟩
      · rw [rfLoop_succ_ok (pureEval f) tol fuel i a b fa fb
          (f (falsePos a b fa fb)) rows hden hfc, if_pos hstop]
      · intro hall
        exact absurd hstop (not_le.mpr
          (hall ⟨i, a, b, falsePos a b fa fb, fa, fb, f (falsePos a b fa fb)⟩
            (List.mem_singleton_self _)))
    · have hfc0 : npSign (f (falsePos a b fa fb)) ≠ 0 := by
        intro hz
        have h0 := (npSign_eq_zero_iff _).mp hz
        exact hstop (by rw [h0]; simpa using htol)
      by_cases hbr : npSign fa * npSign (f (falsePos a b fa fb)) < 0
      · obtain ⟨s, hs, himp⟩ := ih (i + 1) a (falsePos a b fa fb) fa
          (f (falsePos a b fa fb))
          (rows ++ [⟨i, a, b, falsePos a b fa fb, fa, fb, f (falsePos a b fa fb)⟩])
          hfa rfl (npSign_ne_of_mul_neg hbr)
        refine ⟨⟨i, a, b, falsePos a b fa fb, fa, fb, f (falsePos a b fa fb)⟩ :: s,
          ?_, ?_⟩
        · rw [rfLoop_succ_ok (pureEval f) tol fuel i a b fa fb
            (f (falsePos a b fa fb)) rows hden hfc, if_neg hstop, if_pos hbr, hs]
          simp
        · intro hall
          have : s.length = fuel := himp (fun r hr => hall r (List.mem_cons_of_mem _ hr))
          simp [this]
      · have hfa0 : fa ≠ 0 := by
          intro h0
          have hfb0 : fb ≠ 0 := by
            intro hb0
            exact hneq (by rw [h0, hb0])
          rw [h0, falsePos_left_zero hfb0, hfa, h0] at hstop
          exact hstop (by simpa using htol)
        have hsfa : npSign fa ≠ 0 :=
          fun hz => hfa0 ((npSign_eq_zero_iff fa).mp hz)
        have heq := npSign_eq_of_mul_not_neg hsfa hfc0 hbr
        obtain ⟨s, hs, himp⟩ := ih (i + 1) (falsePos a b fa fb) b
          (f (falsePos a b fa fb)) fb
          (rows ++ [⟨i, a, b, falsePos a b fa fb, fa, fb, f (falsePos a b fa fb)⟩])
          rfl hfb (fun hcb => hneq (heq.trans hcb))
        refine ⟨⟨i, a, b, falsePos a b fa fb, fa, fb, f (falsePos a b fa fb)⟩ :: s,
          ?_, ?_⟩
        · rw [rfLoop_succ_ok (pureEval f) tol fuel i a b fa fb
            (f (falsePos a b fa fb)) rows hden hfc, if_neg hstop, if_neg hbr, hs]
          simp
        · intro hall
          have : s.length = fuel := himp (fun r hr => hall r (List.mem_cons_of_mem _ hr))
          simp [this]

/-- C6: Max-iteration soft stop.  With a never-raising evaluator, a
valid entry bracket, `tol ≥ 0` and `max_iter ≥ 1`, the run returns
normally; if moreover no record meets the tolerance, the trace has
exactly `max_iter` records, its last record carries index `max_iter`,
and that record's residual is still above `tol` (i.e. not converged). -/
theorem C6_max_iter_soft_stop (f : ℚ → ℚ) (a b tol : ℚ) (n : ℕ)
    (htol : 0 ≤ tol) (hn : 1 ≤ n)
    (hsign : npSign (f a) ≠ npSign (f b)) :
    ∃ rows, regula_falsi (pureEval f) a b tol n = Except.ok rows ∧
      ((∀ r ∈ rows, tol < |r.fc|) →
        rows.length = n ∧ ∃ hne : rows ≠ [],
          (rows.getLast hne).iter = n ∧ tol < |(rows.getLast hne).fc|) := by
  obtain ⟨s, hs, himp⟩ :=
    rfLoop_pure_total f tol htol n 1 a b (f a) (f b) [] rfl rfl hsign
  rw [List.nil_append] at hs
  have hrun : regula_falsi (pureEval f) a b tol n = Except.ok s := by
    rw [regula_falsi_eq (pureEval f) a b tol n (f a) (f b) rfl rfl,
      if_neg hsign]
    exact hs
  refine ⟨s, hrun, ?_⟩
  intro hall
  have hlen := himp hall
  have hne : s ≠ [] := by
    intro h0
    rw [h0] at hlen
    simp only [List.length_nil] at hlen
    omega
  obtain ⟨s2, hout, -, hidx, -⟩ :=
    rfLoop_shape (pureEval f) tol n 1 a b (f a) (f b) [] s hs
  rw [List.nil_append] at hout
  refine ⟨hlen, hne, ?_, hall _ (List.getLast_mem hne)⟩
  rw [List.getLast_eq_getElem]
  have hlt : s.length - 1 < s.length :=
    Nat.sub_lt (List.length_pos.mpr hne) Nat.zero_lt_one
  have hlt2 : s.length - 1 < s2.length := by rw [← hout]; exact hlt
  have h2 := hidx (s.length - 1) hlt2
  rw [List.get_eq_getElem] at h2
  have h3 : s2 = s := hout.symm
  subst h3
  rw [h2, hlen]
  omega

/-- Witness for C6: `f(x) = x` on `[-1, 1]` with `tol = 0`,
`max_iter = 1`: the single produced record has residual `0`, so the
non-convergence premise is vacuously checkable and the run is normal. -/
theorem C6_max_iter_soft_stop_witness :
    ∃ rows, regula_falsi (pureEval fun x => x) (-1) 1 0 1 = Except.ok rows ∧
      ((∀ r ∈ rows, (0 : ℚ) < |r.fc|) →
        rows.length = 1 ∧ ∃ hne : rows ≠ [],
          (rows.getLast hne).iter = 1 ∧ (0 : ℚ) < |(rows.getLast hne).fc|) := by
  exact C6_max_iter_soft_stop (fun x => x) (-1) 1 0 1 le_rfl le_rfl
    (by norm_num [npSign])

/-- C10: Exact zero at an endpoint passes the entry check.  If `f(a) = 0`
and `f(b) ≠ 0` (or symmetrically), a never-raising run with `tol ≥ 0` and
`max_iter ≥ 1` does not raise the sign error: it returns normally with a
non-empty trace. -/
theorem C10_zero_endpoint (f : ℚ → ℚ) (a b tol : ℚ) (n : ℕ)
    (htol : 0 ≤ tol) (hn : 1 ≤ n) :
    (f a = 0 → f b ≠ 0 → ∃ rows,
      regula_falsi (pureEval f) a b tol n = Except.ok rows ∧ rows ≠ []) ∧
    (f b = 0 → f a ≠ 0 → ∃ rows,
      regula_falsi (pureEval f) a b tol n = Except.ok rows ∧ rows ≠ []) := by
  have hz : npSign (0 : ℚ) = 0 := by decide
  constructor
  · intro ha hb
    have hsign : npSign (f a) ≠ npSign (f b) := by
      rw [ha, hz]
      intro hc
      exact hb ((npSign_eq_zero_iff (f b)).mp hc.symm)
    obtain ⟨s, hs, -⟩ :=
      rfLoop_pure_total f tol htol n 1 a b (f a) (f b) [] rfl rfl hsign
    rw [List.nil_append] at hs
    obtain ⟨s2, hout, -, -, hpos⟩ :=
      rfLoop_shape (pureEval f) tol n 1 a b (f a) (f b) [] s hs
    rw [List.nil_append] at hout
    refine ⟨s, ?_, ?_⟩
    · rw [regula_falsi_eq (pureEval f) a b tol n (f a) (f b) rfl rfl,
        if_neg hsign]
      exact hs
    · have := hpos (Nat.lt_of_lt_of_le Nat.zero_lt_one hn)
      rw [← hout] at this
      exact List.length_pos.mp this
  · intro hb ha
    have hsign : npSign (f a) ≠ npSign (f b) := by
      rw [hb, hz]
      intro hc
      exact ha ((npSign_eq_zero_iff (f a)).mp hc)
    obtain ⟨s, hs, -⟩ :=
      rfLoop_pure_total f tol htol n 1 a b (f a) (f b) [] rfl rfl hsign
    rw [List.nil_append] at hs
    obtain ⟨s2, hout, -, -, hpos⟩ :=
      rfLoop_shape (pureEval f) tol n 1 a b (f a) (f b) [] s hs
    rw [List.nil_append] at hout
    refine ⟨s, ?_, ?_⟩
    · rw [regula_falsi_eq (pureEval f) a b tol n (f a) (f b) rfl rfl,
        if_neg hsign]
      exact hs
    · have := hpos (Nat.lt_of_lt_of_le Nat.zero_lt_one hn)
      rw [← hout] at this
      exact List.length_pos.mp this

/-- Witness for C10: `f(x) = x` on `[0, 1]`, with `f(0) = 0` exactly. -/
theorem C10_zero_endpoint_witness :
    ∃ rows, regula_falsi (pureEval fun x => x) 0 1 0 1 = Except.ok rows ∧
      rows ≠ [] := by
  exact (C10_zero_endpoint (fun x => x) 0 1 0 1 le_rfl le_rfl).1 rfl
    (by norm_num)

/-- With `fa < 0 < fb` the false-position point lies strictly between
the endpoints. -/
theorem falsePos_between_of_neg_pos {a b fa fb : ℚ} (hfa : fa < 0)
    (hfb : 0 < fb) (hab : a ≠ b) :
    min a b < falsePos a b fa fb ∧ falsePos a b fa fb < max a b := by
  have hd : 0 < fb - fa := by linarith
  unfold falsePos
  rcases lt_or_gt_of_ne hab with hlt | hgt
  · rw [min_eq_left hlt.le, max_eq_right hlt.le]
    constructor
    · rw [lt_div_iff₀ hd]
      nlinarith [mul_pos (sub_pos.mpr hlt) (neg_pos.mpr hfa)]
    · rw [div_lt_iff₀ hd]
      nlinarith [mul_pos (sub_pos.mpr hlt) hfb]
  · rw [min_eq_right hgt.le, max_eq_left hgt.le]
    constructor
    · rw [lt_div_iff₀ hd]
      nlinarith [mul_pos (sub_pos.mpr hgt) hfb]
    · rw [div_lt_iff₀ hd]
      nlinarith [mul_pos (sub_pos.mpr hgt) (neg_pos.mpr hfa)]

/-- Disagreeing nonzero signs mean one value is negative and the other
positive. -/
theorem npSign_opposite {fa fb : ℚ} (hs : npSign fa ≠ npSign fb)
    (ha : fa ≠ 0) (hb : fb ≠ 0) :
    (fa < 0 ∧ 0 < fb) ∨ (fb < 0 ∧ 0 < fa) := by
  rcases lt_trichotomy fa 0 with h1 | h1 | h1
  · rcases lt_trichotomy fb 0 with h2 | h2 | h2
    · exfalso
      apply hs
      unfold npSign
      rw [if_pos h1, if_pos h2]
    · exact absurd h2 hb
    · exact Or.inl ⟨h1, h2⟩
  · exact absurd h1 ha
  · rcases lt_trichotomy fb 0 with h2 | h2 | h2
    · exact Or.inr ⟨h2, h1⟩
    · exact absurd h2 hb
    · exfalso
      apply hs
      unfold npSign
      rw [if_neg (not_lt.mpr h1.le), if_neg (ne_of_gt h1),
        if_neg (not_lt.mpr h2.le), if_neg (ne_of_gt h2)]

/-- The false-position formula is symmetric in the two endpoints. -/
theorem falsePos_comm (a b fa fb : ℚ) :
    falsePos a b fa fb = falsePos b a fb fa := by
  unfold falsePos
  rw [show b * fa - a * fb = -(a * fb - b * fa) by ring,
    show fa - fb = -(fb - fa) by ring, neg_div_neg_eq]

/-- C7: Bounding of the false-position point.  For `a ≠ b` with
`sign(fa) ≠ sign(fb)` and neither value zero, the point
`c = (a·fb − b·fa)/(fb − fa)` computed at src/app.py line 51 lies
strictly between `min(a, b)` and `max(a, b)`. -/
theorem C7_bounding (a b fa fb : ℚ) (hab : a ≠ b)
    (hsign : npSign fa ≠ npSign fb) (hfa : fa ≠ 0) (hfb : fb ≠ 0) :
    min a b < falsePos a b fa fb ∧ falsePos a b fa fb < max a b := by
  rcases npSign_opposite hsign hfa hfb with ⟨h1, h2⟩ | ⟨h1, h2⟩
  · exact falsePos_between_of_neg_pos h1 h2 hab
  · rw [falsePos_comm, min_comm, max_comm]
    exact falsePos_between_of_neg_pos h1 h2 (Ne.symm hab)

/-- Witness for C7 at `a = 0, b = 1, fa = -1, fb = 1`. -/
theorem C7_bounding_witness :
    min (0 : ℚ) 1 < falsePos 0 1 (-1) 1 ∧
      falsePos 0 1 (-1) 1 < max (0 : ℚ) 1 := by
  exact C7_bounding 0 1 (-1) 1 (by norm_num) (by decide) (by norm_num)
    (by norm_num)

/-- C8: Evaluation-failure mapping.  An evaluator failure at `a` or `b`
at entry, or at the new point `c` in any iteration, makes the run end
with that evaluator's error wrapped as the structured evaluation error —
never a plain result and never a different exit. -/
theorem C8_eval_failure (ε : Type) :
    (∀ (f : ℚ → Except ε ℚ) (a b tol : ℚ) (n : ℕ) (e : ε),
      f a = Except.error e →
      regula_falsi f a b tol n = Except.error (RFError.evalError e)) ∧
    (∀ (f : ℚ → Except ε ℚ) (a b tol : ℚ) (n : ℕ) (fa : ℚ) (e : ε),
      f a = Except.ok fa → f b = Except.error e →
      regula_falsi f a b tol n = Except.error (RFError.evalError e)) ∧
    (∀ (f : ℚ → Except ε ℚ) (tol : ℚ) (fuel i : ℕ) (a b fa fb : ℚ)
      (rows : List IterationRecord) (e : ε),
      fb - fa ≠ 0 → f (falsePos a b fa fb) = Except.error e →
      rfLoop f tol (fuel + 1) i a b fa fb rows =
        Except.error (RFError.evalError e)) := by
  refine ⟨?_, ?_, ?_⟩
  · intro f a b tol n e h
    exact regula_falsi_errA f a b tol n e h
  · intro f a b tol n fa e hfa hfb
    exact regula_falsi_errB f a b tol n fa e hfa hfb
  · intro f tol fuel i a b fa fb rows e hden hfc
    exact rfLoop_succ_err f tol fuel i a b fa fb rows e hden hfc

/-- Witness for C8 with evaluators failing at `a`, at `b`, and at the
first false-position point respectively. -/
theorem C8_eval_failure_witness :
    regula_falsi (fun _ : ℚ => (Except.error () : Except Unit ℚ)) 0 1 1 5 =
      Except.error (RFError.evalError ()) ∧
    regula_falsi
        (fun x : ℚ => if x = 1 then Except.error () else Except.ok 0) 0 1 1 5 =
      Except.error (RFError.evalError ()) ∧
    rfLoop (fun _ : ℚ => (Except.error () : Except Unit ℚ)) 1 1 1 0 1 (-1) 1 [] =
      Except.error (RFError.evalError ()) := by
  refine ⟨?_, ?_, ?_⟩
  · exact (C8_eval_failure Unit).1 _ 0 1 1 5 () rfl
  · exact (C8_eval_failure Unit).2.1 _ 0 1 1 5 0 () (by norm_num) (by norm_num)
  · exact (C8_eval_failure Unit).2.2 _ 1 0 1 0 1 (-1) 1 [] () (by norm_num) rfl
